import Mathlib

/-!
Shallow embedding of the `telsh` embedded telnet debug shell
(`include/telsh/command_registry.hpp`, `include/telsh/telnet_session.hpp`)
and proofs about it.

Conventions used throughout:
* C strings (`char*` contents up to the terminating NUL) are modelled as
  `List Char`; a nullable `const char*` is `Option (List Char)`.
* Machine integers are modelled as `Nat`/`Int`; byte values are `Nat`
  (with side conditions `b ≤ 255` where the byte domain matters).
* Out-parameters become components of the returned tuple; fallible
  operations return `Option`.
* `Send`/output callbacks are modelled as traces: each call appends its
  payload to a list.  For the session, each trace element also records the
  value of `output_paused_` at the time of the call, since `Send` drops
  the data when that flag is set.
-/

namespace Telsh

/-- Character list standing for the contents of a C string. -/
abbrev Str := List Char

-- ---------------------------------------------------------------------------
-- ShellSplit (command_registry.hpp, lines 53-114)
-- ---------------------------------------------------------------------------

/-- Whitespace test of `ShellSplit`: space, tab, CR, LF. -/
def isWsChar (c : Char) : Bool :=
  (c == ' ') || (c == '\t') || (c == '\r') || (c == '\n')

/-- Limit-free core of the `ShellSplit` scanning loop: returns the list of
tokens (quote characters stripped).  Arguments mirror the C locals
`p / in_sq / in_dq / in_arg` plus the reversed current token. -/
def splitAll : Str → Bool → Bool → Bool → Str → List Str
  | [], _, _, inArg, cur => if inArg then [cur.reverse] else []
  | c :: rest, inSq, inDq, inArg, cur =>
    if isWsChar c && !inSq && !inDq then
      if inArg then cur.reverse :: splitAll rest inSq inDq false []
      else splitAll rest inSq inDq false cur
    else if (c == '\'') && !inDq then
      if inArg then splitAll rest (!inSq) inDq true cur
      else splitAll rest (!inSq) inDq true []
    else if (c == '"') && !inSq then
      if inArg then splitAll rest inSq (!inDq) true cur
      else splitAll rest inSq (!inDq) true []
    else
      if inArg then splitAll rest inSq inDq true (c :: cur)
      else splitAll rest inSq inDq true [c]

/-- The `ShellSplit` scanning loop with the `argc >= max_args` overflow
check (performed exactly where the C code records `argv[argc++]`, i.e. at
the start of a token).  `none` models the `-1` overflow return. -/
def splitLoop : Str → Bool → Bool → Bool → Str → List Str → Int → Option (List Str)
  | [], _, _, inArg, cur, acc, _ => some (if inArg then acc ++ [cur.reverse] else acc)
  | c :: rest, inSq, inDq, inArg, cur, acc, maxA =>
    if isWsChar c && !inSq && !inDq then
      if inArg then splitLoop rest inSq inDq false [] (acc ++ [cur.reverse]) maxA
      else splitLoop rest inSq inDq false cur acc maxA
    else if (c == '\'') && !inDq then
      if inArg then splitLoop rest (!inSq) inDq true cur acc maxA
      else if maxA ≤ (acc.length : Int) then none
      else splitLoop rest (!inSq) inDq true [] acc maxA
    else if (c == '"') && !inSq then
      if inArg then splitLoop rest inSq (!inDq) true cur acc maxA
      else if maxA ≤ (acc.length : Int) then none
      else splitLoop rest inSq (!inDq) true [] acc maxA
    else
      if inArg then splitLoop rest inSq inDq true (c :: cur) acc maxA
      else if maxA ≤ (acc.length : Int) then none
      else splitLoop rest inSq inDq true [c] acc maxA

/-- Argument vector produced by `ShellSplit` on a non-null line with a
non-null output array; `none` is the `-1` overflow result. -/
def splitArgs (line : Str) (maxArgs : Int) : Option (List Str) :=
  splitLoop line false false false [] [] maxArgs

/-- Number of whitespace-separated (quote-aware) tokens in a line. -/
def tokenCount (line : Str) : Nat :=
  (splitAll line false false false []).length

/-- Full `ShellSplit` including the nullptr checks on `cmdline` and `argv`.
Returns the C `int` result together with the argument vector written to
`argv` (empty on failure). -/
def ShellSplit (cmdline : Option Str) (argvPresent : Bool) (maxArgs : Int) :
    Int × List Str :=
  match cmdline, argvPresent with
  | some line, true =>
    match splitArgs line maxArgs with
    | none => (-1, [])
    | some ts => ((ts.length : Int), ts)
  | _, _ => (-1, [])

-- ---------------------------------------------------------------------------
-- Substring machinery (for "output contains ..." statements)
-- ---------------------------------------------------------------------------

/-- Boolean test: `pat` is an initial segment of `s`. -/
def leadsWith : Str → Str → Bool
  | [], _ => true
  | _ :: _, [] => false
  | p :: ps, c :: cs => (p == c) && leadsWith ps cs

/-- Boolean test: `pat` occurs contiguously inside `s`. -/
def hasSub (pat : Str) : Str → Bool
  | [] => leadsWith pat []
  | c :: cs => leadsWith pat (c :: cs) || hasSub pat cs

-- ---------------------------------------------------------------------------
-- CommandRegistry (command_registry.hpp, lines 120-237)
-- ---------------------------------------------------------------------------

/-- Model of the opaque `void*` user-context pointer. -/
abbrev Ctx := Nat

/-- Model of `CmdFn`: the handler receives the argument vector (`argc` is
its length, `argv[0]` the command name) and the registration context, and
returns the `int` status. -/
abbrev CmdFn := List Str → Ctx → Int

/-- One `CmdEntry` of the registry table.  `name` is non-null once stored
(`Register` rejects null names); `desc` may be null. -/
structure CmdEntry where
  name : Str
  desc : Option Str
  fn : CmdFn
  ctx : Ctx

/-- The registry table: entries in registration order, `count_` is the
length.  `kMaxCommands = 64`. -/
abbrev Registry := List CmdEntry

/-- Model of `CommandRegistry::Register`: returns the `bool` result and the
resulting table. -/
def Register (reg : Registry) (name : Option Str) (desc : Option Str)
    (fn : Option CmdFn) (ctx : Ctx) : Bool × Registry :=
  match name, fn with
  | some n, some f =>
    if 64 ≤ reg.length then (false, reg)
    else if reg.any (fun e => e.name == n) then (false, reg)
    else (true, reg ++ [⟨n, desc, f, ctx⟩])
  | _, _ => (false, reg)

/-- Model of `CommandRegistry::FindByName`. -/
def FindByName (reg : Registry) (name : Option Str) : Option CmdEntry :=
  match name with
  | none => none
  | some n => reg.find? (fun e => e.name == n)

/-- Left-justified minimum-width-16 field, as `snprintf` `%-16s`. -/
def padTo16 (s : Str) : Str :=
  s ++ List.replicate (16 - s.length) ' '

/-- The help line `snprintf(buf, 128, "  %-16s - %s\r\n", name, desc?desc:"")`
for one entry.  `snprintf` truncates the stored text to 127 characters
(plus NUL); note the C code then passes `snprintf`'s untruncated return
value as the length, so on truncation it would even read past the
formatted text — we model the 127-character buffer content. -/
def helpLine (e : CmdEntry) : Str :=
  ("  ".toList ++ padTo16 e.name ++ " - ".toList ++ e.desc.getD [] ++ "\r\n".toList).take 127

/-- Model of `CommandRegistry::PrintHelp`: output-callback trace. -/
def PrintHelp (outPresent : Bool) (reg : Registry) : List Str :=
  if outPresent then "Available commands:\r\n".toList :: reg.map helpLine
  else []

/-- The `"Unknown command: %s\r\n"` message (128-byte `snprintf` buffer). -/
def unknownMsg (name : Str) : Str :=
  ("Unknown command: ".toList ++ name ++ "\r\n".toList).take 127

/-- Model of `CommandRegistry::Execute`: returns the `int` status and the
trace of `output_fn` calls.  (`-2` parse error, `-1` not found; handler
output goes through the handler's own context, not `output_fn`, so it is
not part of this trace.) -/
def Execute (reg : Registry) (cmdline : Option Str) (outPresent : Bool) :
    Int × List Str :=
  match cmdline with
  | none => (-2, [])
  | some line =>
    match splitArgs line 32 with
    | none => (-2, [])
    | some [] => (0, [])
    | some (hd :: args) =>
      if hd = "help".toList then (0, PrintHelp outPresent reg)
      else
        match reg.find? (fun e => e.name == hd) with
        | some e => (e.fn (hd :: args) e.ctx, [])
        | none => (-1, if outPresent then [unknownMsg hd] else [])

-- ---------------------------------------------------------------------------
-- Telnet protocol constants (telnet_session.hpp, namespace tel)
-- ---------------------------------------------------------------------------

def kSE : Nat := 240
def kSB : Nat := 250
def kWILL : Nat := 251
def kDONT : Nat := 254
def kIAC : Nat := 255

-- ---------------------------------------------------------------------------
-- IAC filter (telnet_session.hpp, lines 193-250)
-- ---------------------------------------------------------------------------

/-- The `IacPhase` enumeration of the per-session IAC state machine. -/
inductive IacPhase where
  | kNormal
  | kIac
  | kNego
  | kSub
  deriving DecidableEq

/-- The `IacState` struct: current phase plus `prev_byte` (used only while
subnegotiating). -/
structure IacState where
  phase : IacPhase
  prev : Nat
  deriving DecidableEq

/-- Model of `TelnetSession::FilterIac`.  Input is the received byte;
the result pairs the updated state with the returned `char`, encoded as
the byte value it carries (`0` is the returned `'\0'`, which the `Run`
loop treats as "consumed by the filter"). -/
def FilterIac (st : IacState) (b : Nat) : IacState × Nat :=
  match st.phase with
  | .kNormal =>
    if b = kIAC then (⟨.kIac, st.prev⟩, 0)
    else (st, b)
  | .kIac =>
    if b = kIAC then (⟨.kNormal, st.prev⟩, b)
    else if kWILL ≤ b ∧ b ≤ kDONT then (⟨.kNego, st.prev⟩, 0)
    else if b = kSB then (⟨.kSub, 0⟩, 0)
    else (⟨.kNormal, st.prev⟩, 0)
  | .kNego => (⟨.kNormal, st.prev⟩, 0)
  | .kSub =>
    if st.prev = kIAC ∧ b = kSE then (⟨.kNormal, b⟩, 0)
    else (⟨.kSub, b⟩, 0)

/-- Feed a byte sequence through `FilterIac`, collecting the bytes the
filter emits (non-`'\0'` returns, exactly the characters the `Run` loop
would forward to `ProcessChar`). -/
def feedIac (st : IacState) : List Nat → IacState × List Nat
  | [] => (st, [])
  | b :: rest =>
    let p := FilterIac st b
    let q := feedIac p.1 rest
    (q.1, (if p.2 = 0 then [] else [p.2]) ++ q.2)

/-- No adjacent `IAC SE` pair occurs inside the byte list. -/
def noIacSe : List Nat → Bool
  | [] => true
  | [_] => true
  | a :: b :: rest => !((a == 255) && (b == 240)) && noIacSe (b :: rest)

-- ---------------------------------------------------------------------------
-- Session state (telnet_session.hpp)
-- ---------------------------------------------------------------------------

/-- The `Auth` enumeration. -/
inductive Auth where
  | kNeedUser
  | kNeedPass
  | kAuthorized
  deriving DecidableEq

/-- The `ArrowPhase` enumeration. -/
inductive ArrowPhase where
  | kNone
  | kEsc
  | kBracket
  deriving DecidableEq

/-- `SessionConfig`: optional credentials, prompt and banner strings. -/
structure SessionConfig where
  username : Option Str
  password : Option Str
  prompt : Str
  banner : Option Str

/-- Command-history ring buffer state (`history_` / `history_count_` /
`history_write_`).  `slots` is the 16-entry array `history_`; only indices
`0..15` are ever written. -/
structure HistState where
  slots : Nat → Str
  count : Nat
  write : Nat

/-- History state after `Init` (`memset` to zero). -/
def initHist : HistState := ⟨fun _ => [], 0, 0⟩

/-- Model of `TelnetSession::PushHistory` (capacity `kHistorySize = 16`,
entry capacity `kMaxCmdLen - 1 = 255` characters via `strncpy`). -/
def PushHistory (h : HistState) (cmd : Str) : HistState :=
  if cmd = [] then h
  else if h.count > 0 ∧ h.slots ((h.write + 15) % 16) = cmd then h
  else
    { slots := fun j => if j = h.write then cmd.take 255 else h.slots j,
      count := if h.count < 16 then h.count + 1 else h.count,
      write := (h.write + 1) % 16 }

/-- Model of `TelnetSession::GetHistory` (`0` = most recent; `nullptr` for
an out-of-range index). -/
def GetHistory (h : HistState) (index : Int) : Option Str :=
  if index < 0 ∨ (h.count : Int) ≤ index then none
  else some (h.slots ((h.write + 15 - index.toNat) % 16))

/-- Whole-session state relevant to the byte-processing path.  `out` is the
trace of `Send` calls the session makes; each element records the value of
`output_paused_` at call time (a paused `Send` drops its payload on the
socket) together with the payload. -/
structure Session where
  running : Bool
  cfg : SessionConfig
  reg : Registry
  iac : IacState
  auth : Auth
  userBuf : Str
  arrow : ArrowPhase
  cmdBuf : Str
  hist : HistState
  histNav : Int
  paused : Bool
  out : List (Bool × Str)

/-- One `Send`/`SendStr` call made by the session. -/
def sendS (s : Session) (d : Str) : Session :=
  { s with out := s.out ++ [(s.paused, d)] }

/-- Model of `TelnetSession::Init` (session state after reset; the socket
fd is outside the model). -/
def InitSession (cfg : SessionConfig) (reg : Registry) : Session :=
  { running := true
    cfg := cfg
    reg := reg
    iac := ⟨.kNormal, 0⟩
    auth := if cfg.username ≠ none ∧ cfg.password ≠ none then .kNeedUser else .kAuthorized
    userBuf := []
    arrow := .kNone
    cmdBuf := []
    hist := initHist
    histNav := -1
    paused := false
    out := [] }

/-- Model of `TelnetSession::ShowPrompt`. -/
def ShowPrompt (s : Session) : Session :=
  match s.auth with
  | .kNeedUser => sendS s "username: ".toList
  | .kNeedPass => sendS s "password: ".toList
  | .kAuthorized => sendS s s.cfg.prompt

/-- Model of `TelnetSession::CheckAuth` (username buffer `user_buf_` holds
63 characters plus NUL, filled by `strncpy`). -/
def CheckAuth (s : Session) : Session :=
  if s.auth = .kNeedUser then
    { s with userBuf := s.cmdBuf.take 63, auth := .kNeedPass }
  else if s.auth = .kNeedPass then
    if s.userBuf = s.cfg.username.getD [] ∧ s.cmdBuf = s.cfg.password.getD [] then
      sendS { s with auth := .kAuthorized } "Login OK.\r\n".toList
    else
      { sendS s "Login failed.\r\n".toList with auth := .kNeedUser, userBuf := [] }
  else s

/-- Model of `TelnetSession::ReplaceLineWith`: erase the displayed line
(one `"\x08 \x08"` per character), then install and echo the replacement
(truncated to `kMaxCmdLen - 1`); a null replacement only erases. -/
def ReplaceLineWith (s : Session) (text : Option Str) : Session :=
  let s1 : Session :=
    { s with cmdBuf := [],
             out := s.out ++ List.replicate s.cmdBuf.length (s.paused, "\x08 \x08".toList) }
  match text with
  | none => s1
  | some t =>
    let t' := t.take 255
    sendS { s1 with cmdBuf := t' } t'

/-- Model of `TelnetSession::HandleArrow` (only reached while
`arrow_ != kNone`). -/
def HandleArrow (s : Session) (c : Char) : Session :=
  if s.arrow = .kEsc then
    { s with arrow := if c = '[' then .kBracket else .kNone }
  else
    let s0 := { s with arrow := ArrowPhase.kNone }
    if c = 'A' then
      let next := s0.histNav + 1
      if next < (s0.hist.count : Int) then
        ReplaceLineWith { s0 with histNav := next } (GetHistory s0.hist next)
      else s0
    else if c = 'B' then
      if s0.histNav > 0 then
        ReplaceLineWith { s0 with histNav := s0.histNav - 1 }
          (GetHistory s0.hist (s0.histNav - 1))
      else if s0.histNav = 0 then
        ReplaceLineWith { s0 with histNav := -1 } (some [])
      else s0
    else s0

/-- Model of `TelnetSession::ExecuteCommand`: push history, handle the
built-ins `exit`/`quit` (farewell plus `Stop()`), otherwise run the
registry on a scratch copy of the line with this session's `Send` as the
output sink.  Handlers are modelled as pure status functions, so only the
registry's own `output_fn` calls appear in the trace. -/
def ExecuteCommand (s : Session) : Session :=
  let s1 := { s with hist := PushHistory s.hist s.cmdBuf }
  if s1.cmdBuf = "exit".toList ∨ s1.cmdBuf = "quit".toList then
    { sendS s1 "Bye.\r\n".toList with running := false }
  else
    let execBuf := s1.cmdBuf.take 255
    { s1 with out := s1.out ++ (Execute s1.reg (some execBuf) true).2.map (fun o => (s1.paused, o)) }

/-- Model of `TelnetSession::ProcessChar` (one already-IAC-filtered
character through the line editor). -/
def ProcessChar (s : Session) (c : Char) : Session :=
  if s.arrow ≠ .kNone then HandleArrow s c
  else if c = Char.ofNat 27 then { s with arrow := .kEsc }
  else if c = Char.ofNat 19 then { s with paused := true }
  else if c = Char.ofNat 17 then { s with paused := false }
  else if c = Char.ofNat 8 ∨ c = Char.ofNat 127 then
    if s.cmdBuf.length > 0 then
      let s' := { s with cmdBuf := s.cmdBuf.dropLast }
      if s.auth ≠ .kNeedPass then sendS s' "\x08 \x08".toList else s'
    else s
  else if c = '\r' then
    let s1 := sendS s "\r\n".toList
    let s2 :=
      if s1.auth ≠ .kAuthorized then CheckAuth s1
      else if s1.cmdBuf.length > 0 then ExecuteCommand s1
      else s1
    ShowPrompt { s2 with cmdBuf := [], histNav := -1 }
  else if c = '\n' then s
  else
    if s.cmdBuf.length < 255 then
      let s' := { s with cmdBuf := s.cmdBuf ++ [c] }
      if s.auth = .kNeedPass then sendS s' "*".toList else sendS s' [c]
    else s

/-- One iteration of the `Run` read loop on a received byte: filter it,
drop it if the filter returned `'\0'`, otherwise hand it to
`ProcessChar`. -/
def RunStep (s : Session) (b : Nat) : Session :=
  let p := FilterIac s.iac b
  let s' := { s with iac := p.1 }
  if p.2 = 0 then s' else ProcessChar s' (Char.ofNat p.2)

-- ---------------------------------------------------------------------------
-- Demo values used by concrete instantiations
-- ---------------------------------------------------------------------------

/-- A configuration with no credentials (auth disabled). -/
def demoCfg : SessionConfig := ⟨none, none, "telsh> ".toList, none⟩

/-- A configuration with credentials `root` / `pw`. -/
def demoAuthCfg : SessionConfig :=
  ⟨some "root".toList, some "pw".toList, "telsh> ".toList, none⟩

-- ---------------------------------------------------------------------------
-- Substring lemmas
-- ---------------------------------------------------------------------------

lemma leadsWith_refl_append (p r : Str) : leadsWith p (p ++ r) = true := by
  induction p with
  | nil => simp [leadsWith]
  | cons c cs ih => simp [leadsWith, ih]

lemma hasSub_of_leadsWith {p s : Str} (h : leadsWith p s = true) :
    hasSub p s = true := by
  cases s with
  | nil => simpa [hasSub] using h
  | cons c cs => simp [hasSub, h]

lemma hasSub_append (l p r : Str) : hasSub p (l ++ (p ++ r)) = true := by
  induction l with
  | nil => simpa using hasSub_of_leadsWith (leadsWith_refl_append p r)
  | cons c cs ih => simp [hasSub, ih]

-- ---------------------------------------------------------------------------
-- C2: the IAC filter state machine
-- ---------------------------------------------------------------------------

lemma feedIac_sub_swallows (ds : List Nat) : ∀ p, noIacSe (p :: ds) = true →
    feedIac ⟨.kSub, p⟩ (ds ++ [255, 240]) = (⟨.kNormal, 240⟩, []) := by
  induction ds with
  | nil =>
    intro p _
    simp [feedIac, FilterIac, kIAC, kSE]
  | cons d ds ih =>
    intro p hno
    have hpair : ¬(p = 255 ∧ d = 240) := by
      intro ⟨hp, hd⟩
      subst hp; subst hd
      simp [noIacSe] at hno
    have htail : noIacSe (d :: ds) = true := by
      cases ds with
      | nil => simp [noIacSe]
      | cons e es =>
        simp only [noIacSe, Bool.and_eq_true] at hno ⊢
        exact hno.2
    have hstep : FilterIac ⟨.kSub, p⟩ d = (⟨.kSub, d⟩, 0) := by
      simp [FilterIac, kIAC, kSE, hpair]
    simp only [List.cons_append, feedIac, hstep]
    simp [ih d htail]

/-- C2: `FilterIac` is the step function of the four-state machine
{Normal, SawIac, Negotiating, Subnegotiating}: in Normal, `0xFF` moves to
SawIac emitting nothing and any other byte is returned as-is; in SawIac,
`0xFF` emits one literal `0xFF` and returns to Normal, `251..254`
(WILL/WONT/DO/DONT) moves to Negotiating, `250` (SB) moves to
Subnegotiating, anything else returns to Normal consumed; Negotiating
consumes exactly one byte (the option code) and returns to Normal;
Subnegotiating consumes bytes until an IAC immediately followed by SE
(`240`).  Consequently `255,251,3` (IAC WILL SGA) emits nothing, `255,255`
emits exactly one `0xFF`, and a whole subnegotiation block through its
terminating IAC SE emits nothing. -/
theorem iac_filter_spec :
    (∀ st b, st.phase = IacPhase.kNormal → b = 255 →
      FilterIac st b = (⟨.kIac, st.prev⟩, 0))
  ∧ (∀ st b, st.phase = IacPhase.kNormal → b ≠ 255 → FilterIac st b = (st, b))
  ∧ (∀ st, st.phase = IacPhase.kIac → FilterIac st 255 = (⟨.kNormal, st.prev⟩, 255))
  ∧ (∀ st b, st.phase = IacPhase.kIac → 251 ≤ b → b ≤ 254 →
      FilterIac st b = (⟨.kNego, st.prev⟩, 0))
  ∧ (∀ st, st.phase = IacPhase.kIac → FilterIac st 250 = (⟨.kSub, 0⟩, 0))
  ∧ (∀ st b, st.phase = IacPhase.kIac → b ≠ 255 → ¬(251 ≤ b ∧ b ≤ 254) → b ≠ 250 →
      FilterIac st b = (⟨.kNormal, st.prev⟩, 0))
  ∧ (∀ st b, st.phase = IacPhase.kNego → FilterIac st b = (⟨.kNormal, st.prev⟩, 0))
  ∧ (∀ st b, st.phase = IacPhase.kSub → st.prev = 255 → b = 240 →
      FilterIac st b = (⟨.kNormal, b⟩, 0))
  ∧ (∀ st b, st.phase = IacPhase.kSub → ¬(st.prev = 255 ∧ b = 240) →
      FilterIac st b = (⟨.kSub, b⟩, 0))
  ∧ (∀ p, feedIac ⟨.kNormal, p⟩ [255, 251, 3] = (⟨.kNormal, p⟩, []))
  ∧ (∀ p, feedIac ⟨.kNormal, p⟩ [255, 255] = (⟨.kNormal, p⟩, [255]))
  ∧ (∀ ds p, (∀ b ∈ ds, b ≤ 255) → noIacSe ds = true →
      feedIac ⟨.kNormal, p⟩ (255 :: 250 :: (ds ++ [255, 240])) =
        (⟨.kNormal, 240⟩, [])) := by
  refine ⟨?_, ?_, ?_, ?_, ?_, ?_, ?_, ?_, ?_, ?_, ?_, ?_⟩
  · intro st b h hb; subst hb; simp [FilterIac, h, kIAC]
  · intro st b h hb; simp [FilterIac, h, kIAC, hb]
  · intro st h; simp [FilterIac, h, kIAC]
  · intro st b h h1 h2
    have hb : b ≠ 255 := by omega
    simp [FilterIac, h, kIAC, kWILL, kDONT, kSB, hb, h1, h2]
  · intro st h; simp [FilterIac, h, kIAC, kWILL, kDONT, kSB]
  · intro st b h hb h1 h2
    simp [FilterIac, h, kIAC, kWILL, kDONT, kSB, hb, h1, h2]
  · intro st b h; simp [FilterIac, h]
  · intro st b h hp hb; subst hb; simp [FilterIac, h, kIAC, kSE, hp]
  · intro st b h hpb; simp [FilterIac, h, kIAC, kSE, hpb]
  · intro p; simp [feedIac, FilterIac, kIAC, kWILL, kDONT, kSB]
  · intro p; simp [feedIac, FilterIac, kIAC]
  · intro ds p _ hno
    have h1 : FilterIac ⟨.kNormal, p⟩ 255 = (⟨.kIac, p⟩, 0) := by
      simp [FilterIac, kIAC]
    have h2 : FilterIac ⟨.kIac, p⟩ 250 = (⟨.kSub, 0⟩, 0) := by
      simp [FilterIac, kIAC, kWILL, kDONT, kSB]
    have h0 : noIacSe (0 :: ds) = true := by
      cases ds with
      | nil => simp [noIacSe]
      | cons e es =>
        simp only [noIacSe, Bool.and_eq_true] at hno ⊢
        exact ⟨by simp, hno⟩
    simp only [feedIac, h1, h2]
    simp [feedIac_sub_swallows ds 0 h0]

/-- Witness for `iac_filter_spec` at concrete inputs: an ordinary byte in
Normal state, a WONT in SawIac state, and a subnegotiation block with body
`1,2,255,3`. -/
theorem iac_filter_spec_witness :
    FilterIac ⟨.kNormal, 0⟩ 65 = (⟨.kNormal, 0⟩, 65)
  ∧ FilterIac ⟨.kIac, 9⟩ 252 = (⟨.kNego, 9⟩, 0)
  ∧ feedIac ⟨.kNormal, 7⟩ (255 :: 250 :: ([1, 2, 255, 3] ++ [255, 240])) =
      (⟨.kNormal, 240⟩, []) := by
  obtain ⟨-, h2, -, h4, -, -, -, -, -, -, -, h12⟩ := iac_filter_spec
  exact ⟨h2 ⟨.kNormal, 0⟩ 65 rfl (by decide),
         h4 ⟨.kIac, 9⟩ 252 rfl (by decide) (by decide),
         h12 [1, 2, 255, 3] 7 (by decide) (by decide)⟩

-- ---------------------------------------------------------------------------
-- C10: a literal NUL data byte is silently discarded by the read loop
-- ---------------------------------------------------------------------------

/-- C10: a NUL data byte received in the Normal IAC state is returned
unchanged as `'\0'` by `FilterIac` (no state change), which the `Run` loop
treats as "consumed by the filter", so the byte never reaches
`ProcessChar`: the whole session state — line buffer, authentication
state, history, pause flag — is untouched. -/
theorem nul_byte_discarded (s : Session) (h : s.iac.phase = IacPhase.kNormal) :
    FilterIac s.iac 0 = (s.iac, 0)
  ∧ RunStep s 0 = s
  ∧ (RunStep s 0).cmdBuf = s.cmdBuf
  ∧ (RunStep s 0).auth = s.auth
  ∧ (RunStep s 0).hist = s.hist
  ∧ (RunStep s 0).paused = s.paused := by
  have hf : FilterIac s.iac 0 = (s.iac, 0) := by
    simp [FilterIac, h, kIAC]
  have hr : RunStep s 0 = s := by
    simp [RunStep, hf]
  exact ⟨hf, hr, by rw [hr], by rw [hr], by rw [hr], by rw [hr]⟩

/-- Witness for `nul_byte_discarded`: the freshly initialised session. -/
theorem nul_byte_discarded_witness :
    RunStep (InitSession demoCfg []) 0 = InitSession demoCfg [] :=
  (nul_byte_discarded (InitSession demoCfg []) rfl).2.1

-- ---------------------------------------------------------------------------
-- C4: the authentication sub-machine
-- ---------------------------------------------------------------------------

/-- C4: with username and password configured the machine starts in
NeedUser (otherwise Authorized); the first completed line is copied
verbatim (truncated to the 63-character capacity of `user_buf_`) into the
username buffer and the state moves to NeedPass — the equation shows the
password is never consulted there; a completed line in NeedPass moves to
Authorized with the success message exactly when stored username and line
match the configured pair, and on any mismatch the username buffer is
cleared, the failure message emitted, and the state returns to NeedUser. -/
theorem auth_machine_spec :
    (∀ cfg reg, cfg.username ≠ none → cfg.password ≠ none →
      (InitSession cfg reg).auth = Auth.kNeedUser)
  ∧ (∀ cfg reg, cfg.username = none ∨ cfg.password = none →
      (InitSession cfg reg).auth = Auth.kAuthorized)
  ∧ (∀ s, s.auth = Auth.kNeedUser →
      CheckAuth s = { s with userBuf := s.cmdBuf.take 63, auth := .kNeedPass })
  ∧ (∀ s u p, s.auth = Auth.kNeedPass →
      s.cfg.username = some u → s.cfg.password = some p →
      s.userBuf = u → s.cmdBuf = p →
      CheckAuth s = { s with auth := .kAuthorized,
                             out := s.out ++ [(s.paused, "Login OK.\r\n".toList)] })
  ∧ (∀ s u p, s.auth = Auth.kNeedPass →
      s.cfg.username = some u → s.cfg.password = some p →
      ¬(s.userBuf = u ∧ s.cmdBuf = p) →
      CheckAuth s = { s with auth := .kNeedUser, userBuf := [],
                             out := s.out ++ [(s.paused, "Login failed.\r\n".toList)] }) := by
  refine ⟨?_, ?_, ?_, ?_, ?_⟩
  · intro cfg reg hu hp; simp [InitSession, hu, hp]
  · intro cfg reg h
    rcases h with h | h <;> simp [InitSession, h]
  · intro s h; simp [CheckAuth, h]
  · intro s u p h hu hp hub hcb
    simp [CheckAuth, h, hu, hp, hub, hcb, sendS]
  · intro s u p h hu hp hne
    have : ¬(s.userBuf = s.cfg.username.getD [] ∧ s.cmdBuf = s.cfg.password.getD []) := by
      rw [hu, hp]; simpa using hne
    simp [CheckAuth, h, this, sendS]

/-- Witness for `auth_machine_spec`: with credentials `root`/`pw`, feed the
username line, then a wrong password line and check the machine is back at
a clean NeedUser state, then a correct run. -/
theorem auth_machine_spec_witness :
    (InitSession demoAuthCfg []).auth = Auth.kNeedUser
  ∧ CheckAuth { InitSession demoAuthCfg [] with cmdBuf := "root".toList } =
      { InitSession demoAuthCfg [] with
          cmdBuf := "root".toList
          userBuf := "root".toList
          auth := .kNeedPass }
  ∧ CheckAuth { InitSession demoAuthCfg [] with
        cmdBuf := "xx".toList
        userBuf := "root".toList
        auth := .kNeedPass } =
      { InitSession demoAuthCfg [] with
          cmdBuf := "xx".toList
          userBuf := []
          auth := .kNeedUser
          out := [(false, "Login failed.\r\n".toList)] }
  ∧ CheckAuth { InitSession demoAuthCfg [] with
        cmdBuf := "pw".toList
        userBuf := "root".toList
        auth := .kNeedPass } =
      { InitSession demoAuthCfg [] with
          cmdBuf := "pw".toList
          userBuf := "root".toList
          auth := .kAuthorized
          out := [(false, "Login OK.\r\n".toList)] } := by
  obtain ⟨h1, -, h3, h4, h5⟩ := auth_machine_spec
  refine ⟨h1 demoAuthCfg [] (by simp [demoAuthCfg]) (by simp [demoAuthCfg]), ?_, ?_, ?_⟩
  · have h := h3 { InitSession demoAuthCfg [] with cmdBuf := "root".toList } rfl
    simpa using h
  · have h := h5 { InitSession demoAuthCfg [] with
        cmdBuf := "xx".toList
        userBuf := "root".toList
        auth := .kNeedPass }
      "root".toList "pw".toList rfl rfl rfl (by simp [InitSession])
    simpa [InitSession] using h
  · have h := h4 { InitSession demoAuthCfg [] with
        cmdBuf := "pw".toList
        userBuf := "root".toList
        auth := .kNeedPass }
      "root".toList "pw".toList rfl rfl rfl rfl
    simpa [InitSession] using h

-- ---------------------------------------------------------------------------
-- C5: Register
-- ---------------------------------------------------------------------------

/-- C5: `Register` fails and leaves the table (count and every entry)
unchanged exactly when the name is null, the handler is null, the table
already holds 64 entries, or an entry with an equal name exists; otherwise
it appends the new entry after all existing ones and succeeds.  Registering
the same name twice fails the second time with the table unchanged. -/
theorem register_spec :
    (∀ (reg : Registry) (name desc : Option Str) (fn : Option CmdFn) (ctx : Ctx),
      reg.length ≤ 64 →
      (((Register reg name desc fn ctx).1 = false ∧
        (Register reg name desc fn ctx).2 = reg) ↔
        (name = none ∨ fn = none ∨ reg.length = 64 ∨
          ∃ n, name = some n ∧ ∃ e ∈ reg, e.name = n)))
  ∧ (∀ (reg : Registry) (n : Str) (desc : Option Str) (f : CmdFn) (ctx : Ctx),
      reg.length < 64 → (¬ ∃ e ∈ reg, e.name = n) →
      Register reg (some n) desc (some f) ctx = (true, reg ++ [⟨n, desc, f, ctx⟩]))
  ∧ (∀ (reg : Registry) (n : Str) (d d' : Option Str) (f f' : CmdFn) (c c' : Ctx),
      reg.length < 64 → (¬ ∃ e ∈ reg, e.name = n) →
      Register ((Register reg (some n) d (some f) c).2) (some n) d' (some f') c' =
        (false, (Register reg (some n) d (some f) c).2)) := by
  have hnodup : ∀ (reg : Registry) (n : Str), (¬ ∃ e ∈ reg, e.name = n) →
      reg.any (fun e => e.name == n) = false := by
    intro reg n h
    cases hx : reg.any (fun e => e.name == n) with
    | false => rfl
    | true =>
      exfalso
      obtain ⟨e, he, hbe⟩ := List.any_eq_true.mp hx
      exact h ⟨e, he, by simpa using hbe⟩
  have hsucc : ∀ (reg : Registry) (n : Str) (desc : Option Str) (f : CmdFn) (ctx : Ctx),
      reg.length < 64 → (¬ ∃ e ∈ reg, e.name = n) →
      Register reg (some n) desc (some f) ctx = (true, reg ++ [⟨n, desc, f, ctx⟩]) := by
    intro reg n desc f ctx hlen hnm
    have h64 : ¬(64 ≤ reg.length) := by omega
    simp [Register, h64, hnodup reg n hnm]
  refine ⟨?_, hsucc, ?_⟩
  · intro reg name desc fn ctx hle
    constructor
    · intro ⟨hfail, _⟩
      by_contra hcon
      push_neg at hcon
      obtain ⟨hn, hf, hlen, hdup⟩ := hcon
      obtain ⟨n, hn'⟩ := Option.ne_none_iff_exists'.mp hn
      obtain ⟨f, hf'⟩ := Option.ne_none_iff_exists'.mp hf
      have hnd : ¬ ∃ e ∈ reg, e.name = n := by
        push_neg
        exact hdup n hn'
      have := hsucc reg n desc f ctx (by omega) hnd
      rw [hn', hf', this] at hfail
      simp at hfail
    · intro h
      rcases h with h | h | h | ⟨n, hn, e, he, hen⟩
      · subst h; simp [Register]
      · subst h; cases name <;> simp [Register]
      · cases name with
        | none => simp [Register]
        | some n =>
          cases fn with
          | none => simp [Register]
          | some f => simp [Register, h]
      · subst hn
        cases fn with
        | none => simp [Register]
        | some f =>
          have hany : reg.any (fun e => e.name == n) = true := by
            simp only [List.any_eq_true]
            exact ⟨e, he, by simp [hen]⟩
          by_cases h64 : 64 ≤ reg.length <;> simp [Register, h64, hany]
  · intro reg n d d' f f' c c' hlen hnm
    rw [hsucc reg n d f c hlen hnm]
    have hany : (reg ++ [(⟨n, d, f, c⟩ : CmdEntry)]).any (fun e => e.name == n) = true := by
      simp [List.any_append]
    by_cases h64 : 64 ≤ (reg ++ [(⟨n, d, f, c⟩ : CmdEntry)]).length <;>
      simp [Register, h64, hany]

/-- Witness for `register_spec`: registering `dup` twice into the empty
table succeeds then fails, leaving exactly one entry. -/
theorem register_spec_witness :
    Register [] (some "dup".toList) (some "first".toList) (some fun _ _ => 0) 0 =
      (true, [⟨"dup".toList, some "first".toList, fun _ _ => 0, 0⟩])
  ∧ Register [(⟨"dup".toList, some "first".toList, fun _ _ => 0, 0⟩ : CmdEntry)]
      (some "dup".toList) (some "second".toList) (some fun _ _ => 1) 1 =
      (false, [⟨"dup".toList, some "first".toList, fun _ _ => 0, 0⟩]) := by
  obtain ⟨-, h2, h3⟩ := register_spec
  constructor
  · exact h2 [] "dup".toList (some "first".toList) (fun _ _ => 0) 0 (by simp) (by simp)
  · have h := h3 [] "dup".toList (some "first".toList) (some "second".toList)
      (fun _ _ => 0) (fun _ _ => 1) 0 1 (by simp) (by simp)
    rw [h2 [] "dup".toList (some "first".toList) (fun _ _ => 0) 0 (by simp) (by simp)] at h
    simpa using h

-- ---------------------------------------------------------------------------
-- C1: Execute dispatch
-- ---------------------------------------------------------------------------

lemma hasSub_self_append (p r : Str) : hasSub p (p ++ r) = true := by
  simpa using hasSub_append [] p r

/-- The formatted help line of an entry fits `snprintf`'s 128-byte buffer
(127 characters plus NUL): two leading spaces, the name padded to 16
columns, `" - "`, the description, CRLF. -/
def helpLineFits (e : CmdEntry) : Prop :=
  e.name.length + (16 - e.name.length) + (e.desc.getD []).length + 7 ≤ 127

lemma helpLine_eq_of_fits {e : CmdEntry} (h : helpLineFits e) :
    helpLine e = "  ".toList ++ padTo16 e.name ++ " - ".toList ++
      e.desc.getD [] ++ "\r\n".toList := by
  unfold helpLine
  apply List.take_of_length_le
  unfold helpLineFits at h
  simp [padTo16]
  omega

/-- C1 (amended): `Execute` returns `-2` on a null line or tokenizer
failure; returns `0` with no output on an empty token list; intercepts a
first token `help` before lookup and sends the header plus one line per
registered command — each line containing that command's name and
description whenever the formatted line fits the 128-byte `snprintf`
buffer (over-long lines are truncated at 127 characters); invokes the
stored handler on the parsed argument vector and stored context for a
registered first token, passing the handler status through unchanged; and
otherwise sends a message containing `Unknown command` and returns `-1`. -/
theorem execute_dispatch_spec :
    (∀ reg outP, Execute reg none outP = (-2, []))
  ∧ (∀ reg line outP, splitArgs line 32 = none →
      Execute reg (some line) outP = (-2, []))
  ∧ (∀ reg line outP, splitArgs line 32 = some [] →
      Execute reg (some line) outP = (0, []))
  ∧ (∀ (reg : Registry) line args, splitArgs line 32 = some ("help".toList :: args) →
      Execute reg (some line) true =
        (0, "Available commands:\r\n".toList :: reg.map helpLine)
      ∧ ∀ e ∈ reg, helpLineFits e →
          ∃ l ∈ (Execute reg (some line) true).2,
            hasSub e.name l = true ∧ hasSub (e.desc.getD []) l = true)
  ∧ (∀ (reg : Registry) line hd args e outP, splitArgs line 32 = some (hd :: args) →
      hd ≠ "help".toList → reg.find? (fun e => e.name == hd) = some e →
      Execute reg (some line) outP = (e.fn (hd :: args) e.ctx, []))
  ∧ (∀ (reg : Registry) line hd args, splitArgs line 32 = some (hd :: args) →
      hd ≠ "help".toList → reg.find? (fun e => e.name == hd) = none →
      Execute reg (some line) true = (-1, [unknownMsg hd])
      ∧ hasSub "Unknown command".toList (unknownMsg hd) = true) := by
  refine ⟨?_, ?_, ?_, ?_, ?_, ?_⟩
  · intro reg outP; rfl
  · intro reg line outP h; simp [Execute, h]
  · intro reg line outP h; simp [Execute, h]
  · intro reg line args h
    have hex : Execute reg (some line) true =
        (0, "Available commands:\r\n".toList :: reg.map helpLine) := by
      simp [Execute, h, PrintHelp]
    refine ⟨hex, ?_⟩
    intro e he hfit
    refine ⟨helpLine e, ?_, ?_, ?_⟩
    · rw [hex]
      simp only [List.mem_cons, List.mem_map]
      exact Or.inr ⟨e, he, rfl⟩
    · rw [helpLine_eq_of_fits hfit]
      have := hasSub_append "  ".toList e.name
        (List.replicate (16 - e.name.length) ' ' ++ " - ".toList ++
          e.desc.getD [] ++ "\r\n".toList)
      simpa [padTo16, List.append_assoc] using this
    · rw [helpLine_eq_of_fits hfit]
      have := hasSub_append ("  ".toList ++ padTo16 e.name ++ " - ".toList)
        (e.desc.getD []) "\r\n".toList
      simpa [List.append_assoc] using this
  · intro reg line hd args e outP h hne hfind
    have hne2 : ¬ hd = ['h', 'e', 'l', 'p'] := by simpa using hne
    simp [Execute, h, hne2, hfind]
  · intro reg line hd args h hne hfind
    have hne2 : ¬ hd = ['h', 'e', 'l', 'p'] := by simpa using hne
    constructor
    · simp [Execute, h, hne2, hfind]
    · unfold unknownMsg
      have h17 : ("Unknown command: ".toList ++ (hd ++ "\r\n".toList)).take 127 =
          "Unknown command: ".toList ++ (hd ++ "\r\n".toList).take 110 := by
        rw [List.take_append_eq_append_take]
        norm_num
      have hsplit : ("Unknown command: ".toList : Str) =
          "Unknown command".toList ++ ": ".toList := by decide
      rw [List.append_assoc, h17, hsplit, List.append_assoc]
      exact hasSub_self_append _ _

/-- Registry used by concrete `Execute` instantiations: one command `add`
whose handler returns status 42. -/
def wReg : Registry := [⟨"add".toList, some "add two numbers".toList, fun _ _ => 42, 5⟩]

/-- Witness for `execute_dispatch_spec`: a handler returning 42 makes
`Execute` return 42; an unknown name yields `-1` and the message; `help`
yields the listing; a blank line yields `(0, [])`. -/
theorem execute_dispatch_spec_witness :
    Execute wReg (some "add 1 2".toList) true = (42, [])
  ∧ Execute wReg (some "bogus".toList) true = (-1, [unknownMsg "bogus".toList])
  ∧ Execute wReg (some "help".toList) true =
      (0, "Available commands:\r\n".toList :: wReg.map helpLine)
  ∧ Execute wReg (some " ".toList) true = (0, []) := by
  obtain ⟨-, -, h3, h4, h5, h6⟩ := execute_dispatch_spec
  refine ⟨?_, ?_, ?_, ?_⟩
  · have h := h5 wReg "add 1 2".toList "add".toList ["1".toList, "2".toList]
      ⟨"add".toList, some "add two numbers".toList, fun _ _ => 42, 5⟩ true
      (by decide) (by decide) rfl
    simpa using h
  · exact (h6 wReg "bogus".toList "bogus".toList [] (by decide) (by decide) rfl).1
  · exact (h4 wReg "help".toList [] (by decide)).1
  · exact h3 wReg " ".toList true (by decide)

/-- Registry with a 110-character description: its formatted help line
exceeds the 128-byte `snprintf` buffer. -/
def cexReg : Registry :=
  [⟨"x".toList, some (List.replicate 110 'd'), fun _ _ => 0, 0⟩]

/-- Counterexample to C1 as stated: for the registry `cexReg` holding one
command whose description is 110 `d` characters, `Execute` of `help`
succeeds but no line of the output contains the registered description —
`snprintf`'s 128-byte line buffer truncated it — so the help listing does
not contain every registered command's description. -/
theorem execute_help_truncation_cex :
    (Execute cexReg (some "help".toList) true).1 = 0
  ∧ ((Execute cexReg (some "help".toList) true).2.any
      (fun l => hasSub (List.replicate 110 'd') l)) = false := by
  constructor
  · rfl
  · decide

-- ---------------------------------------------------------------------------
-- C9: a registered "help" entry is shadowed by the built-in
-- ---------------------------------------------------------------------------

lemma find?_append_of_none {α : Type} (p : α → Bool) (l₁ l₂ : List α)
    (h : l₁.find? p = none) : (l₁ ++ l₂).find? p = l₂.find? p := by
  induction l₁ with
  | nil => simp
  | cons a as ih =>
    cases hp : p a with
    | false =>
      simp only [List.cons_append, List.find?, hp] at h ⊢
      exact ih h
    | true =>
      simp only [List.find?, hp] at h
      exact absurd h (by simp)

lemma map_helpLine_eq_of_namedesc {reg reg' : Registry}
    (h : reg.map (fun e => (e.name, e.desc)) = reg'.map (fun e => (e.name, e.desc))) :
    reg.map helpLine = reg'.map helpLine := by
  have : ∀ (l l' : Registry),
      l.map (fun e => (e.name, e.desc)) = l'.map (fun e => (e.name, e.desc)) →
      l.map helpLine = l'.map helpLine := by
    intro l
    induction l with
    | nil => intro l' h'; cases l' <;> simp_all
    | cons a as ih =>
      intro l' h'
      cases l' with
      | nil => simp_all
      | cons b bs =>
        simp only [List.map_cons, List.cons.injEq, Prod.mk.injEq] at h'
        obtain ⟨⟨hn, hd⟩, ht⟩ := h'
        simp only [List.map_cons, List.cons.injEq]
        exact ⟨by simp [helpLine, hn, hd], ih bs ht⟩
  exact this reg reg' h

/-- C9: `Register` has no reserved-name check, so registering `help`
succeeds and stores the entry like any other; yet `Execute` of a line
whose first token is `help` always runs the built-in listing and returns
`0` for every registry — the result depends only on the stored
names/descriptions, never on any handler, so a handler registered under
the name `help` is unreachable through `Execute` while remaining
reachable through `FindByName`. -/
theorem help_shadowing_spec :
    (∀ (reg : Registry) (d : Option Str) (f : CmdFn) (c : Ctx),
      reg.length < 64 → (¬ ∃ e ∈ reg, e.name = "help".toList) →
      Register reg (some "help".toList) d (some f) c =
        (true, reg ++ [⟨"help".toList, d, f, c⟩]))
  ∧ (∀ (reg : Registry) line args outP, splitArgs line 32 = some ("help".toList :: args) →
      Execute reg (some line) outP = (0, PrintHelp outP reg))
  ∧ (∀ (reg reg' : Registry) line args outP,
      splitArgs line 32 = some ("help".toList :: args) →
      reg.map (fun e => (e.name, e.desc)) = reg'.map (fun e => (e.name, e.desc)) →
      Execute reg (some line) outP = Execute reg' (some line) outP)
  ∧ (∀ (reg : Registry) (d : Option Str) (f : CmdFn) (c : Ctx),
      (¬ ∃ e ∈ reg, e.name = "help".toList) →
      FindByName (reg ++ [⟨"help".toList, d, f, c⟩]) (some "help".toList) =
        some ⟨"help".toList, d, f, c⟩) := by
  have hexec : ∀ (reg : Registry) line args outP,
      splitArgs line 32 = some ("help".toList :: args) →
      Execute reg (some line) outP = (0, PrintHelp outP reg) := by
    intro reg line args outP h
    simp [Execute, h]
  refine ⟨?_, hexec, ?_, ?_⟩
  · intro reg d f c hlen hnd
    exact register_spec.2.1 reg "help".toList d f c hlen hnd
  · intro reg reg' line args outP h hmap
    rw [hexec reg line args outP h, hexec reg' line args outP h]
    simp [PrintHelp, map_helpLine_eq_of_namedesc hmap]
  · intro reg d f c hnd
    have hn : reg.find? (fun e => e.name == "help".toList) = none := by
      cases hx : reg.find? (fun e => e.name == "help".toList) with
      | none => rfl
      | some e =>
        exfalso
        have hm := List.find?_some hx
        have he := List.mem_of_find?_eq_some hx
        exact hnd ⟨e, he, by simpa using hm⟩
    show (reg ++ [(⟨"help".toList, d, f, c⟩ : CmdEntry)]).find?
        (fun e => e.name == "help".toList) = some ⟨"help".toList, d, f, c⟩
    rw [find?_append_of_none _ _ _ hn]
    simp

/-- Witness for `help_shadowing_spec`: register a handler named `help`
returning 99 next to `wReg`; `Execute "help"` still returns 0 with the
built-in listing, and `FindByName` still reaches the entry. -/
theorem help_shadowing_spec_witness :
    Register wReg (some "help".toList) (some "shadow".toList) (some fun _ _ => 99) 3 =
      (true, wReg ++ [⟨"help".toList, some "shadow".toList, fun _ _ => 99, 3⟩])
  ∧ Execute (wReg ++ [⟨"help".toList, some "shadow".toList, fun _ _ => 99, 3⟩])
      (some "help".toList) true =
      (0, PrintHelp true (wReg ++ [⟨"help".toList, some "shadow".toList, fun _ _ => 99, 3⟩]))
  ∧ FindByName (wReg ++ [⟨"help".toList, some "shadow".toList, fun _ _ => 99, 3⟩])
      (some "help".toList) = some ⟨"help".toList, some "shadow".toList, fun _ _ => 99, 3⟩ := by
  obtain ⟨h1, h2, -, h4⟩ := help_shadowing_spec
  refine ⟨?_, ?_, ?_⟩
  · exact h1 wReg (some "shadow".toList) (fun _ _ => 99) 3 (by simp [wReg]) (by decide)
  · exact h2 _ "help".toList [] true (by decide)
  · exact h4 wReg (some "shadow".toList) (fun _ _ => 99) 3 (by decide)

-- ---------------------------------------------------------------------------
-- Tokenizer: relating the bounded loop to the limit-free scan
-- ---------------------------------------------------------------------------

lemma splitAll_pos (cs : Str) : ∀ (sq dq : Bool) (cur : Str),
    1 ≤ (splitAll cs sq dq true cur).length := by
  induction cs with
  | nil => intro sq dq cur; simp [splitAll]
  | cons c rest ih =>
    intro sq dq cur
    by_cases h1 : (isWsChar c && !sq && !dq) = true
    · simp [splitAll, h1]
    · by_cases h2 : ((c == '\'') && !dq) = true
      · simpa [splitAll, h1, h2] using ih (!sq) dq cur
      · by_cases h3 : ((c == '"') && !sq) = true
        · simpa [splitAll, h1, h2, h3] using ih sq (!dq) cur
        · simpa [splitAll, h1, h2, h3] using ih sq dq (c :: cur)

/-- The bounded scanning loop succeeds iff the token total stays within
`max_args` (or no further token ever starts), and then produces exactly
the tokens of the limit-free scan. -/
lemma splitLoop_eq_splitAll (cs : Str) :
    ∀ (sq dq arg : Bool) (cur : Str) (acc : List Str) (maxA : Int),
    splitLoop cs sq dq arg cur acc maxA =
      if (splitAll cs sq dq arg cur).length = arg.toNat
         ∨ ((acc.length : Int) + ((splitAll cs sq dq arg cur).length : Int) ≤ maxA)
      then some (acc ++ splitAll cs sq dq arg cur) else none := by
  induction cs with
  | nil =>
    intro sq dq arg cur acc maxA
    cases arg <;> simp [splitLoop, splitAll, Bool.toNat_false, Bool.toNat_true]
  | cons c rest ih =>
    intro sq dq arg cur acc maxA
    cases arg with
    | false =>
      have arm : ∀ (sq2 dq2 : Bool) (curNew : Str),
          splitAll (c :: rest) sq dq false cur = splitAll rest sq2 dq2 true curNew →
          splitLoop (c :: rest) sq dq false cur acc maxA =
            (if maxA ≤ (acc.length : Int) then none
             else splitLoop rest sq2 dq2 true curNew acc maxA) →
          splitLoop (c :: rest) sq dq false cur acc maxA =
            if (splitAll (c :: rest) sq dq false cur).length = (false : Bool).toNat
               ∨ ((acc.length : Int) + ((splitAll (c :: rest) sq dq false cur).length : Int) ≤ maxA)
            then some (acc ++ splitAll (c :: rest) sq dq false cur) else none := by
        intro sq2 dq2 curNew hs hl
        have hK := splitAll_pos rest sq2 dq2 curNew
        rw [hl, hs]
        by_cases hov : maxA ≤ (acc.length : Int)
        · rw [if_pos hov]
          split
          · next hcond =>
              exfalso
              rcases hcond with hc | hc
              · simp only [Bool.toNat_false] at hc; omega
              · omega
          · rfl
        · rw [if_neg hov, ih sq2 dq2 true curNew acc maxA]
          refine if_congr ?_ rfl rfl
          simp only [Bool.toNat_false, Bool.toNat_true]
          omega
      by_cases h1 : (isWsChar c && !sq && !dq) = true
      · have hs : splitAll (c :: rest) sq dq false cur = splitAll rest sq dq false cur := by
          simp [splitAll, h1]
        have hl : splitLoop (c :: rest) sq dq false cur acc maxA =
            splitLoop rest sq dq false cur acc maxA := by
          simp [splitLoop, h1]
        rw [hl, hs]
        exact ih sq dq false cur acc maxA
      · by_cases h2 : ((c == '\'') && !dq) = true
        · exact arm (!sq) dq [] (by simp [splitAll, h1, h2]) (by simp [splitLoop, h1, h2])
        · by_cases h3 : ((c == '"') && !sq) = true
          · exact arm sq (!dq) []
              (by simp [splitAll, h1, h2, h3]) (by simp [splitLoop, h1, h2, h3])
          · exact arm sq dq [c]
              (by simp [splitAll, h1, h2, h3]) (by simp [splitLoop, h1, h2, h3])
    | true =>
      have arm : ∀ (sq2 dq2 : Bool) (curNew : Str),
          splitAll (c :: rest) sq dq true cur = splitAll rest sq2 dq2 true curNew →
          splitLoop (c :: rest) sq dq true cur acc maxA =
            splitLoop rest sq2 dq2 true curNew acc maxA →
          splitLoop (c :: rest) sq dq true cur acc maxA =
            if (splitAll (c :: rest) sq dq true cur).length = (true : Bool).toNat
               ∨ ((acc.length : Int) + ((splitAll (c :: rest) sq dq true cur).length : Int) ≤ maxA)
            then some (acc ++ splitAll (c :: rest) sq dq true cur) else none := by
        intro sq2 dq2 curNew hs hl
        rw [hl, hs]
        exact ih sq2 dq2 true curNew acc maxA
      by_cases h1 : (isWsChar c && !sq && !dq) = true
      · have hs : splitAll (c :: rest) sq dq true cur =
            cur.reverse :: splitAll rest sq dq false [] := by
          simp [splitAll, h1]
        have hl : splitLoop (c :: rest) sq dq true cur acc maxA =
            splitLoop rest sq dq false [] (acc ++ [cur.reverse]) maxA := by
          simp [splitLoop, h1]
        rw [hl, hs, ih sq dq false [] (acc ++ [cur.reverse]) maxA]
        refine if_congr ?_ (by simp) rfl
        simp only [Bool.toNat_false, Bool.toNat_true, List.length_append,
          List.length_cons, List.length_nil]
        push_cast
        omega
      · by_cases h2 : ((c == '\'') && !dq) = true
        · exact arm (!sq) dq cur (by simp [splitAll, h1, h2]) (by simp [splitLoop, h1, h2])
        · by_cases h3 : ((c == '"') && !sq) = true
          · exact arm sq (!dq) cur
              (by simp [splitAll, h1, h2, h3]) (by simp [splitLoop, h1, h2, h3])
          · exact arm sq dq (c :: cur)
              (by simp [splitAll, h1, h2, h3]) (by simp [splitLoop, h1, h2, h3])

lemma splitArgs_eq (line : Str) (maxA : Int) :
    splitArgs line maxA =
      if tokenCount line = 0 ∨ ((tokenCount line : Int) ≤ maxA)
      then some (splitAll line false false false []) else none := by
  unfold splitArgs tokenCount
  rw [splitLoop_eq_splitAll]
  simp [Bool.toNat_false]

-- ---------------------------------------------------------------------------
-- C7: ShellSplit error handling
-- ---------------------------------------------------------------------------

/-- The string consists only of `ShellSplit` whitespace characters. -/
def wsOnly (w : Str) : Bool := w.all isWsChar

lemma splitAll_skip_ws (w : Str) : ∀ (rest cur : Str), wsOnly w = true →
    splitAll (w ++ rest) false false false cur = splitAll rest false false false cur := by
  induction w with
  | nil => intro rest cur _; rfl
  | cons c w ih =>
    intro rest cur hw
    simp only [wsOnly, List.all_cons, Bool.and_eq_true] at hw
    have h1 : splitAll (c :: (w ++ rest)) false false false cur =
        splitAll (w ++ rest) false false false cur := by
      simp [splitAll, hw.1]
    rw [List.cons_append, h1]
    exact ih rest cur hw.2

lemma tokenCount_ws {line : Str} (h : wsOnly line = true) : tokenCount line = 0 := by
  unfold tokenCount
  have := splitAll_skip_ws line [] [] h
  simp only [List.append_nil] at this
  rw [this]
  rfl

/-- C7: `ShellSplit` rejects rather than truncates: a null line pointer or
a null output array yields `-1`; more tokens than `max_args` fails the
whole parse with `-1` (no partial vector is reported as success); an empty
or whitespace-only line yields `0` arguments without error. -/
theorem shellSplit_errors_spec :
    (∀ maxA, ShellSplit none true maxA = (-1, []))
  ∧ (∀ lineOpt maxA, ShellSplit lineOpt false maxA = (-1, []))
  ∧ (∀ line maxA, 0 ≤ maxA → maxA < (tokenCount line : Int) →
      ShellSplit (some line) true maxA = (-1, []))
  ∧ (∀ line maxA, wsOnly line = true →
      ShellSplit (some line) true maxA = (0, [])) := by
  refine ⟨?_, ?_, ?_, ?_⟩
  · intro maxA; rfl
  · intro lineOpt maxA; cases lineOpt <;> rfl
  · intro line maxA h0 hlt
    have hcond : ¬(tokenCount line = 0 ∨ ((tokenCount line : Int) ≤ maxA)) := by omega
    have hnone : splitArgs line maxA = none := by
      rw [splitArgs_eq, if_neg hcond]
    simp [ShellSplit, hnone]
  · intro line maxA hws
    have h0 := tokenCount_ws hws
    have hnil : splitAll line false false false [] = [] := by
      have := List.length_eq_zero.mp h0
      exact this
    have hsome : splitArgs line maxA = some [] := by
      rw [splitArgs_eq, if_pos (Or.inl h0), hnil]
    simp [ShellSplit, hsome]

/-- Witness for `shellSplit_errors_spec`: four tokens with `max_args = 2`
overflow; a blank line parses to zero arguments. -/
theorem shellSplit_errors_spec_witness :
    ShellSplit (some "a b c d".toList) true 2 = (-1, [])
  ∧ ShellSplit (some "  ".toList) true 32 = (0, [])
  ∧ ShellSplit none true 32 = (-1, []) := by
  obtain ⟨h1, -, h3, h4⟩ := shellSplit_errors_spec
  exact ⟨h3 "a b c d".toList 2 (by decide) (by decide),
         h4 "  ".toList 32 (by decide),
         h1 32⟩

-- ---------------------------------------------------------------------------
-- C3: the tokenizer on well-formed quoted token lists
-- ---------------------------------------------------------------------------

/-- How a token is spelled on the line: unquoted, single-quoted or
double-quoted. -/
inductive QuoteMode where
  | bare
  | singleQ
  | doubleQ

/-- Spell a token on the command line in the given quote mode. -/
def renderTok : QuoteMode → Str → Str
  | .bare, t => t
  | .singleQ, t => '\'' :: (t ++ ['\''])
  | .doubleQ, t => '"' :: (t ++ ['"'])

/-- Characters allowed in an unquoted token: no whitespace, no quote
characters (and no NUL, which would terminate the C string early). -/
def bareOk (c : Char) : Bool :=
  !isWsChar c && !(c == '\'') && !(c == '"') && !(c == '\x00')

/-- Well-formedness of a token for its quote mode: a bare token is
non-empty and free of whitespace and quotes; a quoted token is free of its
own quote character (whitespace and the other quote are allowed). -/
def tokOk : QuoteMode → Str → Bool
  | .bare, t => !t.isEmpty && t.all bareOk
  | .singleQ, t => t.all (fun c => !(c == '\'') && !(c == '\x00'))
  | .doubleQ, t => t.all (fun c => !(c == '"') && !(c == '\x00'))

/-- Spell a whole line: optional leading whitespace, then each token
followed by its trailing whitespace run. -/
def renderLine : Str → List (QuoteMode × Str × Str) → Str
  | w0, [] => w0
  | w0, (q, t, w) :: rest => w0 ++ (renderTok q t ++ renderLine w rest)

/-- Well-formedness of the item list: every token is well-formed, every
whitespace run is whitespace, and the run separating two consecutive
tokens is non-empty (the final run may be empty). -/
def validItems : List (QuoteMode × Str × Str) → Bool
  | [] => true
  | (q, _t, w) :: rest =>
    tokOk q _t && wsOnly w && (rest.isEmpty || !w.isEmpty) && validItems rest

lemma splitAll_complete_ws (w : Str) (rest cur : Str) (hw : wsOnly w = true)
    (hne : w ≠ []) :
    splitAll (w ++ rest) false false true cur =
      cur.reverse :: splitAll rest false false false [] := by
  cases w with
  | nil => exact absurd rfl hne
  | cons c w =>
    simp only [wsOnly, List.all_cons, Bool.and_eq_true] at hw
    have h1 : splitAll (c :: (w ++ rest)) false false true cur =
        cur.reverse :: splitAll (w ++ rest) false false false [] := by
      simp [splitAll, hw.1]
    rw [List.cons_append, h1, splitAll_skip_ws w rest [] hw.2]

lemma splitAll_consume_bare (t : Str) : ∀ (rest cur : Str), t.all bareOk = true →
    splitAll (t ++ rest) false false true cur =
      splitAll rest false false true (t.reverse ++ cur) := by
  induction t with
  | nil => intro rest cur _; simp
  | cons c t ih =>
    intro rest cur ht
    simp only [List.all_cons, Bool.and_eq_true] at ht
    obtain ⟨hc, ht⟩ := ht
    rw [bareOk] at hc
    simp only [Bool.and_eq_true, Bool.not_eq_true'] at hc
    obtain ⟨⟨⟨ha, hb⟩, hq⟩, -⟩ := hc
    have h1 : splitAll (c :: (t ++ rest)) false false true cur =
        splitAll (t ++ rest) false false true (c :: cur) := by
      simp [splitAll, ha, hb, hq]
    rw [List.cons_append, h1, ih rest (c :: cur) ht]
    congr 1
    simp

lemma splitAll_consume_sq (t : Str) : ∀ (rest cur : Str),
    t.all (fun c => !(c == '\'')) = true →
    splitAll (t ++ rest) true false true cur =
      splitAll rest true false true (t.reverse ++ cur) := by
  induction t with
  | nil => intro rest cur _; simp
  | cons c t ih =>
    intro rest cur ht
    simp only [List.all_cons, Bool.and_eq_true, Bool.not_eq_true'] at ht
    obtain ⟨hc, ht⟩ := ht
    have h1 : splitAll (c :: (t ++ rest)) true false true cur =
        splitAll (t ++ rest) true false true (c :: cur) := by
      simp [splitAll, hc]
    rw [List.cons_append, h1, ih rest (c :: cur) ht]
    congr 1
    simp

lemma splitAll_consume_dq (t : Str) : ∀ (rest cur : Str),
    t.all (fun c => !(c == '"')) = true →
    splitAll (t ++ rest) false true true cur =
      splitAll rest false true true (t.reverse ++ cur) := by
  induction t with
  | nil => intro rest cur _; simp
  | cons c t ih =>
    intro rest cur ht
    simp only [List.all_cons, Bool.and_eq_true, Bool.not_eq_true'] at ht
    obtain ⟨hc, ht⟩ := ht
    have h1 : splitAll (c :: (t ++ rest)) false true true cur =
        splitAll (t ++ rest) false true true (c :: cur) := by
      simp [splitAll, hc]
    rw [List.cons_append, h1, ih rest (c :: cur) ht]
    congr 1
    simp

lemma splitAll_consume_tok (q : QuoteMode) (t : Str) (rest cur : Str)
    (ht : tokOk q t = true) :
    splitAll (renderTok q t ++ rest) false false false cur =
      splitAll rest false false true t.reverse := by
  cases q with
  | bare =>
    simp only [tokOk, Bool.and_eq_true] at ht
    obtain ⟨hne, hall⟩ := ht
    cases t with
    | nil => simp at hne
    | cons c t =>
      simp only [List.all_cons, Bool.and_eq_true] at hall
      obtain ⟨hc, hall⟩ := hall
      rw [bareOk] at hc
      simp only [Bool.and_eq_true, Bool.not_eq_true'] at hc
      obtain ⟨⟨⟨ha, hb⟩, hq⟩, -⟩ := hc
      have h1 : splitAll ((c :: t) ++ rest) false false false cur =
          splitAll (t ++ rest) false false true [c] := by
        simp [splitAll, ha, hb, hq]
      rw [renderTok, h1, splitAll_consume_bare t rest [c] hall]
      congr 1
      simp
  | singleQ =>
    simp only [tokOk] at ht
    have ht' : t.all (fun c => !(c == '\'')) = true := by
      rw [List.all_eq_true] at ht ⊢
      intro c hcm
      have := ht c hcm
      simp only [Bool.and_eq_true] at this
      exact this.1
    have h1 : splitAll (('\'' :: (t ++ ['\''])) ++ rest) false false false cur =
        splitAll (t ++ ('\'' :: rest)) true false true [] := by
      have hws : isWsChar '\'' = false := by decide
      simp [splitAll, hws]
    have h2 : splitAll ('\'' :: rest) true false true t.reverse =
        splitAll rest false false true t.reverse := by
      have hws : isWsChar '\'' = false := by decide
      simp [splitAll, hws]
    rw [renderTok, h1, splitAll_consume_sq t ('\'' :: rest) [] ht']
    simpa using h2
  | doubleQ =>
    simp only [tokOk] at ht
    have ht' : t.all (fun c => !(c == '"')) = true := by
      rw [List.all_eq_true] at ht ⊢
      intro c hcm
      have := ht c hcm
      simp only [Bool.and_eq_true] at this
      exact this.1
    have h1 : splitAll (('"' :: (t ++ ['"'])) ++ rest) false false false cur =
        splitAll (t ++ ('"' :: rest)) false true true [] := by
      have hws : isWsChar '"' = false := by decide
      simp [splitAll, hws]
    have h2 : splitAll ('"' :: rest) false true true t.reverse =
        splitAll rest false false true t.reverse := by
      have hws : isWsChar '"' = false := by decide
      simp [splitAll, hws]
    rw [renderTok, h1, splitAll_consume_dq t ('"' :: rest) [] ht']
    simpa using h2

lemma splitAll_render (items : List (QuoteMode × Str × Str)) : ∀ (w0 : Str),
    validItems items = true → wsOnly w0 = true →
    splitAll (renderLine w0 items) false false false [] =
      items.map (fun it => it.2.1) := by
  induction items with
  | nil =>
    intro w0 _ hw
    have := splitAll_skip_ws w0 [] [] hw
    simp only [List.append_nil] at this
    simpa [renderLine] using this
  | cons it rest ih =>
    intro w0 hv hw
    obtain ⟨q, t, w⟩ := it
    simp only [validItems, Bool.and_eq_true, Bool.or_eq_true] at hv
    obtain ⟨⟨⟨htok, hwsw⟩, hsep⟩, hvrest⟩ := hv
    rw [renderLine, splitAll_skip_ws w0 _ [] hw,
      splitAll_consume_tok q t _ [] htok]
    cases rest with
    | nil =>
      by_cases hwe : w = []
      · subst hwe
        simp [renderLine, splitAll]
      · have := splitAll_complete_ws w [] t.reverse hwsw hwe
        simp only [List.append_nil] at this
        simp only [renderLine, this]
        simp [splitAll]
    | cons r rs =>
      have hwne : w ≠ [] := by
        rcases hsep with hs | hs
        · simp at hs
        · simp only [Bool.not_eq_true'] at hs
          exact fun hcon => by subst hcon; simp at hs
      have hx : renderLine w (r :: rs) = w ++ renderLine [] (r :: rs) := by
        obtain ⟨q2, t2, w2⟩ := r
        simp [renderLine]
      rw [hx, splitAll_complete_ws w _ t.reverse hwsw hwne,
        ih [] hvrest (by rfl)]
      simp

/-- C3: for every line spelled as `N` whitespace-separated, optionally
single- or double-quoted tokens (splitting only on space/tab/CR/LF outside
quotes, whitespace kept inside an open quote, one quote kind unable to
close the other, a token starting at its first non-whitespace-or-quote
position) with `N ≤ max_args`, `ShellSplit` returns `N` and the argument
vector holds exactly the token texts with the quote characters
stripped. -/
theorem shellSplit_tokenizer_spec :
    ∀ (items : List (QuoteMode × Str × Str)) (w0 : Str) (maxA : Int),
      validItems items = true → wsOnly w0 = true → (items.length : Int) ≤ maxA →
      ShellSplit (some (renderLine w0 items)) true maxA =
        ((items.length : Int), items.map (fun it => it.2.1)) := by
  intro items w0 maxA hv hw hle
  have hall := splitAll_render items w0 hv hw
  have htc : tokenCount (renderLine w0 items) = items.length := by
    unfold tokenCount
    rw [hall]
    simp
  have hsome : splitArgs (renderLine w0 items) maxA =
      some (items.map (fun it => it.2.1)) := by
    rw [splitArgs_eq, if_pos (Or.inr (by rw [htc]; exact hle)), hall]
  simp [ShellSplit, hsome]

/-- Witness for `shellSplit_tokenizer_spec`: the line
`echo 'hello world'` yields the two arguments `echo` and `hello world`. -/
theorem shellSplit_tokenizer_spec_witness :
    ShellSplit (some ("echo ".toList ++ '\'' :: ("hello world".toList ++ ['\'']))) true 32 =
      (2, ["echo".toList, "hello world".toList]) := by
  have h := shellSplit_tokenizer_spec
    [(QuoteMode.bare, "echo".toList, " ".toList),
     (QuoteMode.singleQ, "hello world".toList, [])]
    [] 32 (by decide) (by decide) (by decide)
  simpa [renderLine, renderTok] using h

-- ---------------------------------------------------------------------------
-- C6: the history ring buffer
-- ---------------------------------------------------------------------------

/-- Reverse-chronological abstraction of one history push: drop empties,
drop an exact duplicate of the most recent entry, otherwise prepend and
keep the 16 most recent entries. -/
def absPush (l : List Str) (cmd : Str) : List Str :=
  if cmd = [] then l
  else if l.head? = some cmd then l
  else (cmd :: l).take 16

/-- The ring state represents the reverse-chronological list `abs`. -/
def HistAbs (h : HistState) (abs : List Str) : Prop :=
  h.write < 16 ∧ h.count = abs.length ∧ abs.length ≤ 16 ∧
  ∀ i, i < abs.length → abs.get? i = some (h.slots ((h.write + 15 - i) % 16))

lemma histAbs_init : HistAbs initHist [] := by
  refine ⟨by norm_num [initHist], rfl, by simp, ?_⟩
  intro i hi
  simp at hi

lemma histAbs_push {h : HistState} {abs : List Str} (hI : HistAbs h abs)
    {cmd : Str} (hlen : cmd.length ≤ 255) :
    HistAbs (PushHistory h cmd) (absPush abs cmd) := by
  obtain ⟨hw, hc, hl, hs⟩ := hI
  by_cases hemp : cmd = []
  · simpa [PushHistory, absPush, hemp] using ⟨hw, hc, hl, hs⟩
  · by_cases hdup : h.count > 0 ∧ h.slots ((h.write + 15) % 16) = cmd
    · have habs : abs.head? = some cmd := by
        have h0 : 0 < abs.length := by omega
        have := hs 0 h0
        rw [← List.get?_zero]
        simpa [hdup.2] using this
      simpa [PushHistory, absPush, hemp, hdup, habs] using ⟨hw, hc, hl, hs⟩
    · have habs : ¬ abs.head? = some cmd := by
        intro hcon
        apply hdup
        have h0 : 0 < abs.length := by
          cases abs with
          | nil => simp at hcon
          | cons a as => simp
        have hv := hs 0 h0
        rw [List.get?_zero] at hv
        rw [hcon] at hv
        refine ⟨by omega, ?_⟩
        simpa using hv.symm
      have htk : cmd.take 255 = cmd := List.take_of_length_le hlen
      rw [show PushHistory h cmd =
          ⟨fun j => if j = h.write then cmd.take 255 else h.slots j,
            if h.count < 16 then h.count + 1 else h.count,
            (h.write + 1) % 16⟩ by simp [PushHistory, hemp, hdup]]
      rw [show absPush abs cmd = (cmd :: abs).take 16 by
        simp [absPush, hemp, habs]]
      have hlen16 : ((cmd :: abs).take 16).length = min 16 (abs.length + 1) := by
        rw [List.length_take, List.length_cons]
      refine ⟨?_, ?_, ?_, ?_⟩
      · exact Nat.mod_lt _ (by norm_num)
      · simp only [hlen16]
        by_cases hcnt : h.count < 16 <;> simp only [hcnt, if_pos, if_neg, if_true, if_false] <;> omega
      · simp only [hlen16]
        omega
      · intro i hi
        simp only [hlen16] at hi
        have hi16 : i < 16 := by omega
        rw [List.get?_take hi16]
        cases i with
        | zero =>
          have hidx : ((h.write + 1) % 16 + 15 - 0) % 16 = h.write := by omega
          rw [hidx]
          simp [htk]
        | succ i =>
          have hi' : i < abs.length := by omega
          have hidx : ((h.write + 1) % 16 + 15 - (i + 1)) % 16 =
              (h.write + 15 - i) % 16 := by omega
          have hne : (h.write + 15 - i) % 16 ≠ h.write := by omega
          rw [hidx]
          simpa [hne] using hs i hi'

lemma histAbs_fold (cmds : List Str) : ∀ (h : HistState) (abs : List Str),
    HistAbs h abs → (∀ c ∈ cmds, c.length ≤ 255) →
    HistAbs (List.foldl PushHistory h cmds) (List.foldl absPush abs cmds) := by
  induction cmds with
  | nil => intro h abs hI _; exact hI
  | cons c cs ih =>
    intro h abs hI hlen
    simp only [List.foldl_cons]
    exact ih _ _ (histAbs_push hI (hlen c (by simp)))
      (fun x hx => hlen x (by simp [hx]))

lemma histAbs_get {h : HistState} {abs : List Str} (hI : HistAbs h abs) (i : Nat) :
    GetHistory h (i : Int) = abs.get? i := by
  obtain ⟨hw, hc, hl, hs⟩ := hI
  by_cases hi : i < abs.length
  · have hv := hs i hi
    unfold GetHistory
    rw [if_neg (by omega)]
    rw [hv]
    simp [Int.toNat_natCast]
  · rw [List.get?_eq_none.mpr (by omega)]
    unfold GetHistory
    rw [if_pos (by omega)]

/-- C6: pushing an empty line is the identity on the history; pushing a
line equal to the most recent entry (`GetHistory 0`) is the identity
(single-entry duplicate suppression); any other push of a session line
(at most 255 characters, the entry capacity) copies it into slot
`history_write_`, advances the write cursor modulo 16, and increments the
count saturating at 16; and after any sequence of pushes the retrieval
order agrees with the reverse-chronological abstract list: entry 0 is the
most recently pushed surviving line and increasing indices walk strictly
backward in time. -/
theorem history_ring_spec :
    (∀ h, PushHistory h [] = h)
  ∧ (∀ h cmd, GetHistory h 0 = some cmd → PushHistory h cmd = h)
  ∧ (∀ h cmd, cmd ≠ [] → cmd.length ≤ 255 → ¬(GetHistory h 0 = some cmd) →
      PushHistory h cmd =
        ⟨fun j => if j = h.write then cmd else h.slots j,
          if h.count < 16 then h.count + 1 else h.count,
          (h.write + 1) % 16⟩)
  ∧ (∀ cmds, (∀ c ∈ cmds, c.length ≤ 255) → ∀ i : Nat,
      GetHistory (List.foldl PushHistory initHist cmds) (i : Int) =
        (List.foldl absPush [] cmds).get? i
      ∧ (List.foldl PushHistory initHist cmds).count =
        (List.foldl absPush [] cmds).length) := by
  refine ⟨?_, ?_, ?_, ?_⟩
  · intro h; simp [PushHistory]
  · intro h cmd hget
    unfold GetHistory at hget
    by_cases hcount : (0 : Int) < 0 ∨ (h.count : Int) ≤ 0
    · rw [if_pos hcount] at hget; exact absurd hget (by simp)
    · rw [if_neg hcount] at hget
      have hc0 : 0 < h.count := by push_neg at hcount; omega
      have hv : h.slots ((h.write + 15) % 16) = cmd := by
        have := hget
        simp only [Option.some.injEq] at this
        simpa using this
      by_cases hemp : cmd = []
      · simp [PushHistory, hemp]
      · simp [PushHistory, hemp, hc0, hv]
  · intro h cmd hemp hlen hget
    have hdup : ¬(h.count > 0 ∧ h.slots ((h.write + 15) % 16) = cmd) := by
      intro ⟨hc0, hv⟩
      apply hget
      unfold GetHistory
      have hcond : ¬((0 : Int) < 0 ∨ (h.count : Int) ≤ (0 : Int)) := by omega
      rw [if_neg hcond]
      simpa using hv
    have htk : cmd.take 255 = cmd := List.take_of_length_le hlen
    simp [PushHistory, hemp, hdup, htk]
  · intro cmds hlen i
    have hI := histAbs_fold cmds initHist [] histAbs_init hlen
    exact ⟨histAbs_get hI i, hI.2.1⟩

/-- Witness for `history_ring_spec`: pushing `a`, `a`, `b` stores exactly
two entries, `b` at index 0 and `a` at index 1. -/
theorem history_ring_spec_witness :
    (List.foldl PushHistory initHist ["a".toList, "a".toList, "b".toList]).count = 2
  ∧ GetHistory (List.foldl PushHistory initHist ["a".toList, "a".toList, "b".toList])
      0 = some "b".toList
  ∧ GetHistory (List.foldl PushHistory initHist ["a".toList, "a".toList, "b".toList])
      1 = some "a".toList
  ∧ GetHistory (List.foldl PushHistory initHist ["a".toList, "a".toList, "b".toList])
      2 = none := by
  obtain ⟨-, -, -, h4⟩ := history_ring_spec
  have hlen : ∀ c ∈ (["a".toList, "a".toList, "b".toList] : List Str),
      c.length ≤ 255 := by decide
  refine ⟨?_, ?_, ?_, ?_⟩
  · exact ((h4 _ hlen 0).2).trans (by decide)
  · exact ((h4 _ hlen 0).1).trans (by decide)
  · exact ((h4 _ hlen 1).1).trans (by decide)
  · exact ((h4 _ hlen 2).1).trans (by decide)

-- ---------------------------------------------------------------------------
-- C8: line buffer bounds in the line editor
-- ---------------------------------------------------------------------------

/-- Session invariant backing the line-buffer claims: the line buffer holds
at most `kMaxCmdLen - 1 = 255` characters and no interior NUL (so the
256-byte C buffer is always NUL-terminated at its length), and no history
slot contains a NUL. -/
def SessInv (s : Session) : Prop :=
  s.cmdBuf.length ≤ 255 ∧ '\x00' ∉ s.cmdBuf ∧ ∀ j, '\x00' ∉ s.hist.slots j

/-- Characters the line editor treats as ordinary input: none of ESC,
Ctrl-S, Ctrl-Q, backspace, DEL, CR, LF. -/
def editorPrintable (c : Char) : Prop :=
  c ≠ Char.ofNat 27 ∧ c ≠ Char.ofNat 19 ∧ c ≠ Char.ofNat 17 ∧
  c ≠ Char.ofNat 8 ∧ c ≠ Char.ofNat 127 ∧ c ≠ '\r' ∧ c ≠ '\n'

lemma getHistory_noNul {h : HistState} (hs : ∀ j, '\x00' ∉ h.slots j)
    {i : Int} {x : Str} (hx : GetHistory h i = some x) : '\x00' ∉ x := by
  unfold GetHistory at hx
  split at hx
  · exact absurd hx (by simp)
  · rw [← Option.some.inj hx]
    exact hs _

lemma pushHistory_slots_noNul {h : HistState} (hs : ∀ j, '\x00' ∉ h.slots j)
    {cmd : Str} (hc : '\x00' ∉ cmd) : ∀ j, '\x00' ∉ (PushHistory h cmd).slots j := by
  intro j
  unfold PushHistory
  split
  · exact hs j
  · split
    · exact hs j
    · by_cases hj : j = h.write
      · simpa [hj] using fun hm => hc ((List.take_sublist _ _).subset hm)
      · simpa [hj] using hs j

lemma checkAuth_hist (x : Session) : (CheckAuth x).hist = x.hist := by
  simp only [CheckAuth]
  split
  · rfl
  · split
    · split
      · rfl
      · rfl
    · rfl

lemma executeCommand_hist (x : Session) :
    (ExecuteCommand x).hist = PushHistory x.hist x.cmdBuf := by
  simp only [ExecuteCommand]
  split
  · rfl
  · rfl

lemma inv_replaceLineWith {s : Session} (hs : ∀ j, '\x00' ∉ s.hist.slots j)
    {t : Option Str} (ht : ∀ x, t = some x → '\x00' ∉ x) :
    SessInv (ReplaceLineWith s t) := by
  unfold ReplaceLineWith
  cases t with
  | none => exact ⟨by simp, by simp, hs⟩
  | some x =>
    refine ⟨?_, ?_, hs⟩
    · show (x.take 255).length ≤ 255
      exact List.length_take_le 255 x
    · show '\x00' ∉ x.take 255
      exact fun hm => ht x rfl ((List.take_sublist _ _).subset hm)

lemma inv_handleArrow {s : Session} (hI : SessInv s) (c : Char) :
    SessInv (HandleArrow s c) := by
  obtain ⟨hlen, hnul, hslots⟩ := hI
  simp only [HandleArrow]
  split
  · exact ⟨hlen, hnul, hslots⟩
  · split
    · split
      · apply inv_replaceLineWith
        · exact hslots
        · intro x hx
          exact getHistory_noNul hslots hx
      · exact ⟨hlen, hnul, hslots⟩
    · split
      · split
        · apply inv_replaceLineWith
          · exact hslots
          · intro x hx
            exact getHistory_noNul hslots hx
        · split
          · apply inv_replaceLineWith
            · exact hslots
            · intro x hx
              rw [← Option.some.inj hx]
              simp
          · exact ⟨hlen, hnul, hslots⟩
      · exact ⟨hlen, hnul, hslots⟩

lemma inv_showPrompt_clear (s2 : Session) (hs2 : ∀ j, '\x00' ∉ s2.hist.slots j) :
    SessInv (ShowPrompt { s2 with cmdBuf := [], histNav := -1 }) := by
  unfold ShowPrompt
  split <;> exact ⟨by simp [sendS], by simp [sendS], hs2⟩

lemma inv_processChar {s : Session} (hI : SessInv s) {c : Char} (hc : c ≠ '\x00') :
    SessInv (ProcessChar s c) := by
  obtain ⟨hlen, hnul, hslots⟩ := hI
  simp only [ProcessChar]
  split
  · exact inv_handleArrow ⟨hlen, hnul, hslots⟩ c
  · split
    · exact ⟨hlen, hnul, hslots⟩
    · split
      · exact ⟨hlen, hnul, hslots⟩
      · split
        · exact ⟨hlen, hnul, hslots⟩
        · split
          · -- backspace / DEL
            split
            · have hbuf : s.cmdBuf.dropLast.length ≤ 255 := by
                rw [List.length_dropLast]
                omega
              have hbn : '\x00' ∉ s.cmdBuf.dropLast :=
                fun hm => hnul ((List.dropLast_sublist _).subset hm)
              split
              · exact ⟨hbuf, hbn, hslots⟩
              · exact ⟨hbuf, hbn, hslots⟩
            · exact ⟨hlen, hnul, hslots⟩
          · split
            · -- carriage return: auth step or dispatch, then clear and prompt
              apply inv_showPrompt_clear
              intro j
              split
              · rw [checkAuth_hist]
                exact hslots j
              · split
                · rw [executeCommand_hist]
                  exact pushHistory_slots_noNul hslots hnul j
                · exact hslots j
            · split
              · exact ⟨hlen, hnul, hslots⟩
              · split
                · -- printable append
                  next hroom =>
                    have hbuf : (s.cmdBuf ++ [c]).length ≤ 255 := by
                      rw [List.length_append]
                      simp only [List.length_cons, List.length_nil]
                      omega
                    have hbn : '\x00' ∉ s.cmdBuf ++ [c] := by
                      intro hm
                      rcases List.mem_append.mp hm with hm | hm
                      · exact hnul hm
                      · simp at hm
                        exact hc hm.symm
                    split
                    · exact ⟨hbuf, hbn, hslots⟩
                    · exact ⟨hbuf, hbn, hslots⟩
                · exact ⟨hlen, hnul, hslots⟩

lemma inv_init (cfg : SessionConfig) (reg : Registry) :
    SessInv (InitSession cfg reg) :=
  ⟨by simp [InitSession], by simp [InitSession], by simp [InitSession, initHist]⟩

lemma inv_foldl (cs : List Char) : ∀ (s : Session), SessInv s →
    (∀ c ∈ cs, c ≠ '\x00') → SessInv (List.foldl ProcessChar s cs) := by
  induction cs with
  | nil => intro s hI _; exact hI
  | cons c cs ih =>
    intro s hI hcs
    simp only [List.foldl_cons]
    exact ih _ (inv_processChar hI (hcs c (by simp)))
      (fun x hx => hcs x (by simp [hx]))

/-- C8: over every sequence of characters the line editor processes
(non-NUL, as delivered by the `Run` loop), the line buffer never exceeds
255 characters and never contains an interior NUL (so the 256-byte buffer
stays NUL-terminated at its length); a printable byte arriving when the
buffer holds 255 characters leaves the whole session unchanged (silently
dropped, nothing echoed); a printable byte arriving with room appends to
the buffer and echoes via `Send` — `'*'` during password entry, the byte
itself otherwise (delivery of the echo is subject to `Send`'s pause
flag, recorded in the trace element). -/
theorem line_editor_spec :
    (∀ cfg reg cs, (∀ c ∈ cs, c ≠ '\x00') →
      (List.foldl ProcessChar (InitSession cfg reg) cs).cmdBuf.length ≤ 255
      ∧ '\x00' ∉ (List.foldl ProcessChar (InitSession cfg reg) cs).cmdBuf)
  ∧ (∀ s c, editorPrintable c → s.arrow = ArrowPhase.kNone →
      s.cmdBuf.length = 255 → ProcessChar s c = s)
  ∧ (∀ s c, editorPrintable c → s.arrow = ArrowPhase.kNone →
      s.cmdBuf.length < 255 →
      ProcessChar s c = { s with
        cmdBuf := s.cmdBuf ++ [c],
        out := s.out ++
          [(s.paused, if s.auth = Auth.kNeedPass then "*".toList else [c])] }) := by
  refine ⟨?_, ?_, ?_⟩
  · intro cfg reg cs hcs
    have hI := inv_foldl cs (InitSession cfg reg) (inv_init cfg reg) hcs
    exact ⟨hI.1, hI.2.1⟩
  · intro s c hp ha hfull
    obtain ⟨h27, h19, h17, h8, h127, hcr, hlf⟩ := hp
    simp only [ProcessChar]
    rw [if_neg (by simp [ha]), if_neg h27, if_neg h19, if_neg h17,
      if_neg (by tauto), if_neg hcr, if_neg hlf, if_neg (by omega)]
  · intro s c hp ha hroom
    obtain ⟨h27, h19, h17, h8, h127, hcr, hlf⟩ := hp
    simp only [ProcessChar]
    rw [if_neg (by simp [ha]), if_neg h27, if_neg h19, if_neg h17,
      if_neg (by tauto), if_neg hcr, if_neg hlf, if_pos hroom]
    by_cases hauth : s.auth = Auth.kNeedPass <;> simp [hauth, sendS]

/-- Witness for `line_editor_spec`: feeding `ab` to a fresh session keeps
the bound; a printable byte on a full buffer is a no-op; a printable byte
with room appends and echoes itself. -/
theorem line_editor_spec_witness :
    (List.foldl ProcessChar (InitSession demoCfg []) "ab".toList).cmdBuf.length ≤ 255
  ∧ ProcessChar { InitSession demoCfg [] with cmdBuf := List.replicate 255 'x' } 'y' =
      { InitSession demoCfg [] with cmdBuf := List.replicate 255 'x' }
  ∧ ProcessChar (InitSession demoCfg []) 'a' =
      { InitSession demoCfg [] with
          cmdBuf := "a".toList
          out := [(false, "a".toList)] } := by
  obtain ⟨h1, h2, h3⟩ := line_editor_spec
  refine ⟨(h1 demoCfg [] "ab".toList (by decide)).1, ?_, ?_⟩
  · exact h2 _ 'y' (by unfold editorPrintable; decide) rfl
      (by show (List.replicate 255 'x').length = 255; rw [List.length_replicate])
  · have h := h3 (InitSession demoCfg []) 'a' (by unfold editorPrintable; decide) rfl
      (by simp [InitSession])
    simpa [InitSession] using h

end Telsh
